import Mathlib

set_option autoImplicit false

/-
Shallow embedding of `src/pedigree.ts` (pedigree-tools-js).

Modelling conventions:
* `DefiniteIdentifier = string | number` is modelled by the inductive `Ident`
  (JS numbers are restricted to integers, which is what identifiers use).
  JavaScript object property keys coerce numbers to their decimal string; this
  coercion is `toKey`.  JS `Set`s use SameValueZero equality and therefore
  distinguish the number `1` from the string `"1"`; they are modelled as
  duplicate-free `List Ident` in insertion order.  Plain objects used as maps
  are modelled as association lists `List (String × _)` in insertion order.
* `for (const k in obj)` enumerates integer-like keys (canonical decimal
  strings of naturals below 2^32 - 1) in ascending numeric order first, then
  the remaining keys in insertion order; this is `jsEnumKeys`.
* `null` / `undefined` / absent parents collapse to `none`; the JS truthiness
  test `if (row.father)` is `truthyOpt` (the falsy definite identifiers are
  the number `0` and the empty string).
* The external `algorithms-js` primitives are modelled with their standard
  semantics: `set.intersection`/`set.union` preserve the insertion order of
  their first argument; `UnionFind` is a partition refined by `union` whose
  `find` returns a canonical member of the group (an element never unioned is
  its own representative); `graph.tarjan` returns the strongly-connected
  components (maximal sets of mutually reachable vertices) of the directed
  graph, so a vertex carrying only a self-loop forms a singleton component.
-/

inductive Ident where
  | str : String → Ident
  | num : Int → Ident
deriving DecidableEq, Repr

def digitChar (n : Nat) : Char :=
  if n = 0 then '0' else if n = 1 then '1' else if n = 2 then '2' else if n = 3 then '3'
  else if n = 4 then '4' else if n = 5 then '5' else if n = 6 then '6' else if n = 7 then '7'
  else if n = 8 then '8' else '9'

def natDigitsAux : Nat → Nat → List Char
  | 0, _ => []
  | fuel + 1, n => if n < 10 then [digitChar n] else natDigitsAux fuel (n / 10) ++ [digitChar (n % 10)]

/-- The decimal rendering of a natural number. -/
def natDecimal (n : Nat) : String := ⟨natDigitsAux (n + 1) n⟩

/-- The decimal rendering of an integer (what JS `toString` produces). -/
def intDecimal (n : Int) : String :=
  if n < 0 then "-" ++ natDecimal n.natAbs else natDecimal n.natAbs

/-- Coercion of a definite identifier to a JavaScript object property key. -/
def toKey : Ident → String
  | .str s => s
  | .num n => intDecimal n

/-- JS truthiness filter on an optional definite identifier: `null`,
`undefined`, the number `0` and the empty string act as "no parent". -/
def truthyOpt : Option Ident → Option Ident
  | none => none
  | some (.str s) => if s = "" then none else some (.str s)
  | some (.num n) => if n = 0 then none else some (.num n)

/-- Raw `sex` values: numbers, strings, `null`, `undefined`. -/
inductive SexValue where
  | num : Int → SexValue
  | str : String → SexValue
  | null : SexValue
  | undef : SexValue
deriving DecidableEq, Repr

structure PedigreeEntry where
  family : Ident
  sample : Ident
  mother : Option Ident
  father : Option Ident
  sex : SexValue
deriving DecidableEq, Repr

inductive PedigreeValidationOptionValue where
  | ignore : PedigreeValidationOptionValue
  | error : PedigreeValidationOptionValue
  | warning : PedigreeValidationOptionValue
deriving DecidableEq, Repr

structure PedigreeValidationOptions where
  empty : PedigreeValidationOptionValue
  duplicates : PedigreeValidationOptionValue
  inconsistentSex : PedigreeValidationOptionValue
  multipleFamilies : PedigreeValidationOptionValue
  oneFamily : PedigreeValidationOptionValue
  fullyConnected : PedigreeValidationOptionValue
  cycles : PedigreeValidationOptionValue
deriving DecidableEq, Repr

/-- The seven check categories (`keyof PedigreeValidationOptions`). -/
inductive CheckCategory where
  | empty : CheckCategory
  | duplicates : CheckCategory
  | inconsistentSex : CheckCategory
  | multipleFamilies : CheckCategory
  | oneFamily : CheckCategory
  | fullyConnected : CheckCategory
  | cycles : CheckCategory
deriving DecidableEq, Repr

/-- `options[which]`. -/
def optGet (o : PedigreeValidationOptions) : CheckCategory → PedigreeValidationOptionValue
  | .empty => o.empty
  | .duplicates => o.duplicates
  | .inconsistentSex => o.inconsistentSex
  | .multipleFamilies => o.multipleFamilies
  | .oneFamily => o.oneFamily
  | .fullyConnected => o.fullyConnected
  | .cycles => o.cycles

def strict : PedigreeValidationOptions :=
  ⟨.ignore, .error, .error, .error, .error, .error, .error⟩

def permissive : PedigreeValidationOptions :=
  ⟨.ignore, .warning, .error, .ignore, .ignore, .warning, .error⟩

structure PedigreeValidationResult where
  ok : Bool
  reasons : List String
  problematic : List Ident
  whys : List (String × List String)
deriving DecidableEq, Repr

/- ### Generic JS collection helpers -/

/-- `Set.add`: append if not already present (insertion order preserved). -/
def setAdd {α : Type} [DecidableEq α] (s : List α) (x : α) : List α :=
  if x ∈ s then s else s ++ [x]

/-- `set.intersection a b`: members of `a` (in order) that are also in `b`. -/
def setIntersection {α : Type} [DecidableEq α] (a b : List α) : List α :=
  a.filter (fun x => decide (x ∈ b))

/-- `set.union(a, b, c)`: elements of `a`, then the new ones of `b`, then of `c`. -/
def setUnion3 {α : Type} [DecidableEq α] (a b c : List α) : List α :=
  c.foldl setAdd (b.foldl setAdd a)

/-- Object property lookup in an association list. -/
def alGet {β : Type} (m : List (String × β)) (k : String) : Option β :=
  (m.find? (fun p => decide (p.1 = k))).map Prod.snd

def alGetD {β : Type} (m : List (String × β)) (k : String) (d : β) : β :=
  (alGet m k).getD d

/-- Update the entry at key `k` with `f`, starting from `v0` when the key is
absent (new keys are appended, as JS objects preserve creation order). -/
def alUpd {β : Type} (m : List (String × β)) (k : String) (f : β → β) (v0 : β) :
    List (String × β) :=
  if (alGet m k).isSome then m.map (fun p => if p.1 = k then (p.1, f p.2) else p)
  else m ++ [(k, f v0)]

def charDigit? (c : Char) : Option Nat :=
  if c = '0' then some 0 else if c = '1' then some 1 else if c = '2' then some 2
  else if c = '3' then some 3 else if c = '4' then some 4 else if c = '5' then some 5
  else if c = '6' then some 6 else if c = '7' then some 7 else if c = '8' then some 8
  else if c = '9' then some 9 else none

def parseNatChars : List Char → Nat → Option Nat
  | [], acc => some acc
  | c :: t, acc =>
      match charDigit? c with
      | some d => parseNatChars t (acc * 10 + d)
      | none => none

/-- Parse an all-digit string as a natural number. -/
def strToNat? (s : String) : Option Nat :=
  match s.data with
  | [] => none
  | l => parseNatChars l 0

/-- A canonical array-index key: the decimal form of a natural below 2^32 - 1. -/
def isCanonicalIndex (s : String) : Option Nat :=
  match strToNat? s with
  | some n => if natDecimal n = s ∧ n < 4294967295 then some n else none
  | none => none

def insertSorted (n : Nat) : List Nat → List Nat
  | [] => [n]
  | m :: ms => if n ≤ m then n :: m :: ms else m :: insertSorted n ms

def sortNats (l : List Nat) : List Nat := l.foldr insertSorted []

/-- `for (const k in obj)` enumeration order over the key list of an object:
canonical array indices ascending, then the other keys in insertion order. -/
def jsEnumKeys (ks : List String) : List String :=
  (sortNats (ks.filterMap isCanonicalIndex)).map (fun n => natDecimal n)
    ++ ks.filter (fun s => (isCanonicalIndex s).isNone)

/- ### The reporting sink (`zip`, `addProblem`) -/

/-- `zip`: pair every member of `fst` with the explanation `snd`. -/
def zip (fst : List Ident) (snd : String) : List (Ident × String) :=
  fst.map (fun x => (x, snd))

/-- Append `why` to `whys[who]`, creating the list on first use. -/
def addWhy (whys : List (String × List String)) (who : String) (why : String) :
    List (String × List String) :=
  if (alGet whys who).isSome then
    whys.map (fun p => if p.1 = who then (p.1, p.2 ++ [why]) else p)
  else whys ++ [(who, [why])]

/-- The per-pair body of `addProblem`'s loop: `problematic.add(who)` and
`whys[who].push(why)` (the `whys` key is the string coercion of `who`). -/
def addPair (r : PedigreeValidationResult) (p : Ident × String) :
    PedigreeValidationResult :=
  ⟨r.ok, r.reasons, setAdd r.problematic p.1, addWhy r.whys (toKey p.1) p.2⟩

/-- `addProblem`: the severity switch with fall-through.  `error` clears `ok`
and then performs the `warning` work; `warning` pushes the reason and records
every (who, why) pair; `ignore` does nothing. -/
def addProblem (options : PedigreeValidationOptions) (result : PedigreeValidationResult)
    (which : CheckCategory) (reason : String) (whoAndWhy : List (Ident × String)) :
    PedigreeValidationResult :=
  match optGet options which with
  | .error =>
      whoAndWhy.foldl addPair ⟨false, result.reasons ++ [reason], result.problematic, result.whys⟩
  | .warning =>
      whoAndWhy.foldl addPair ⟨result.ok, result.reasons ++ [reason], result.problematic, result.whys⟩
  | .ignore => result

/- ### Stage 0: sex normalisation -/

/-- The `switch (row.sex)` normalisation; unrecognised values fall through
unchanged (the switch has no default case). -/
def normalizeSex (s : SexValue) : SexValue :=
  if s = .num 0 ∨ s = .num (-1) ∨ s = .str "0" ∨ s = .null ∨ s = .undef then .null
  else if s = .num 1 ∨ s = .str "1" ∨ s = .str "Male" then .str "Male"
  else if s = .num 2 ∨ s = .str "2" ∨ s = .str "Female" then .str "Female"
  else s

/-- The in-place mutation `row.sex = ...` viewed as a row transformer. -/
def normRow (r : PedigreeEntry) : PedigreeEntry :=
  ⟨r.family, r.sample, r.mother, r.father, normalizeSex r.sex⟩

/-- `row.father` seen through the `if (row.father)` truthiness guard. -/
def fatherT (r : PedigreeEntry) : Option Ident := truthyOpt r.father

/-- `row.mother` seen through the `if (row.mother)` truthiness guard. -/
def motherT (r : PedigreeEntry) : Option Ident := truthyOpt r.mother

/- ### Stage 1: family grouping -/

/-- `famids`: one representative family identifier per distinct object key,
in first-seen order (membership in `fams` is tested on the coerced key). -/
def famidsOf (ped : List PedigreeEntry) : List Ident :=
  ped.foldl
    (fun acc row => if toKey row.family ∈ acc.map toKey then acc else acc ++ [row.family]) []

/-- `fams[k]`: the rows whose family coerces to the object key `k`. -/
def famRows (ped : List PedigreeEntry) (k : String) : List PedigreeEntry :=
  ped.filter (fun row => decide (toKey row.family = k))

/-- The identifiers a row mentions: its sample and its truthy parents. -/
def whosOf (row : PedigreeEntry) : List Ident :=
  [row.sample] ++ (fatherT row).toList ++ (motherT row).toList

def famIdxAdd (idx : List (String × List Ident)) (who : Ident) (famid : Ident) :
    List (String × List Ident) :=
  alUpd idx (toKey who) (fun s => setAdd s famid) []

/-- `famIdx`: for every mentioned individual (object-keyed), the set of family
identifiers mentioning it, built family by family in `famids` order. -/
def famIdxOf (ped : List PedigreeEntry) : List (String × List Ident) :=
  (famidsOf ped).foldl
    (fun idx famid =>
      (famRows ped (toKey famid)).foldl
        (fun idx row => (whosOf row).foldl (fun idx who => famIdxAdd idx who famid) idx) idx)
    []

/-- `familyProblems`: individuals mentioned in more than one family, in the
`for..in` enumeration order of `famIdx`; the pushed identifier is the string
key of the enumeration. -/
def familyProblemsOf (ped : List PedigreeEntry) : List (Ident × String) :=
  (jsEnumKeys ((famIdxOf ped).map Prod.fst)).filterMap (fun who =>
    if 1 < (alGetD (famIdxOf ped) who []).length then
      some (Ident.str who, "Individual belongs to more than one family.")
    else none)

/- ### Stage 2: duplicates, dual-role, sex consistency -/

structure DupScan where
  duplicates : List Ident
  kids : List Ident
  dads : List Ident
  mums : List Ident
deriving DecidableEq, Repr

/-- One step of the duplicate / dads / mums scan; a repeated sample is added
to `duplicates` and the rest of the row is skipped (`continue`). -/
def dupStep (s : DupScan) (row : PedigreeEntry) : DupScan :=
  if row.sample ∈ s.kids then ⟨setAdd s.duplicates row.sample, s.kids, s.dads, s.mums⟩
  else
    ⟨s.duplicates, setAdd s.kids row.sample,
      match fatherT row with
      | some d => setAdd s.dads d
      | none => s.dads,
      match motherT row with
      | some m => setAdd s.mums m
      | none => s.mums⟩

def dupScan (l : List PedigreeEntry) : DupScan := l.foldl dupStep ⟨[], [], [], []⟩

/-- One step of the sex-consistency scan over the normalised rows. -/
def sexStep (dads mums : List Ident) (acc : List Ident × List Ident) (row : PedigreeEntry) :
    List Ident × List Ident :=
  (if row.sex ≠ .str "Female" ∧ row.sample ∈ mums then setAdd acc.1 row.sample else acc.1,
   if row.sex ≠ .str "Male" ∧ row.sample ∈ dads then setAdd acc.2 row.sample else acc.2)

/-- `(inconsistentSexMums, inconsistentSexDads)`. -/
def sexScan (l : List PedigreeEntry) (dads mums : List Ident) : List Ident × List Ident :=
  l.foldl (sexStep dads mums) ([], [])

/- ### Stage 3: per-family indexes, connectivity, cycles -/

structure FamSets where
  kids : List Ident
  dads : List Ident
  mums : List Ident
  child : List (String × List Ident)
deriving DecidableEq, Repr

/-- The per-family index loop body: kids/dads/mums sets and the `child`
relation (object keyed by the parent, so keyed by `toKey`).  The `parent`
relation of the source is built but never read, so it is not modelled. -/
def famStep (s : FamSets) (row : PedigreeEntry) : FamSets :=
  let s1 : FamSets := ⟨setAdd s.kids row.sample, s.dads, s.mums, s.child⟩
  let s2 : FamSets :=
    match fatherT row with
    | some dad =>
        ⟨s1.kids, setAdd s1.dads dad, s1.mums,
          alUpd s1.child (toKey dad) (fun c => setAdd c row.sample) []⟩
    | none => s1
  match motherT row with
  | some mum =>
      ⟨s2.kids, s2.dads, setAdd s2.mums mum,
        alUpd s2.child (toKey mum) (fun c => setAdd c row.sample) []⟩
  | none => s2

def famSetsOf (rows : List PedigreeEntry) : FamSets := rows.foldl famStep ⟨[], [], [], []⟩

/-- Union-find as a partition (list of disjoint groups); the representative of
a group is its first member, an element never unioned is its own root. -/
def ufFind (uf : List (List Ident)) (x : Ident) : Ident :=
  match uf.find? (fun g => g.contains x) with
  | some g => g.headD x
  | none => x

def ufUnion (uf : List (List Ident)) (a b : Ident) : List (List Ident) :=
  if ufFind uf a = ufFind uf b then uf
  else
    ((uf.filter (fun g => !(g.contains a || g.contains b))) ++
      [((uf.find? (fun g => g.contains a)).getD [a]) ++
        ((uf.find? (fun g => g.contains b)).getD [b])])

/-- Step 1 of the connectivity check: union every sample with its truthy
parents. -/
def ufOf (rows : List PedigreeEntry) : List (List Ident) :=
  rows.foldl
    (fun uf row =>
      let uf1 :=
        match fatherT row with
        | some dad => ufUnion uf row.sample dad
        | none => uf
      match motherT row with
      | some mum => ufUnion uf1 row.sample mum
      | none => uf1)
    []

/-- `everyone = [...set.union(kids, dads, mums)]`. -/
def everyoneOf (rows : List PedigreeEntry) : List Ident :=
  setUnion3 (famSetsOf rows).kids (famSetsOf rows).dads (famSetsOf rows).mums

/-- Step 2: group `everyone` by union-find root; `idx` is object-keyed (so by
`toKey` of the root) while `keys` is a `Set` of the root identifiers. -/
def idxKeysOf (rows : List PedigreeEntry) : List (String × List Ident) × List Ident :=
  (everyoneOf rows).foldl
    (fun acc who =>
      (alUpd acc.1 (toKey (ufFind (ufOf rows) who)) (fun s => setAdd s who) [],
        setAdd acc.2 (ufFind (ufOf rows) who)))
    ([], [])

def idxOf (rows : List PedigreeEntry) : List (String × List Ident) := (idxKeysOf rows).1

def keysOf (rows : List PedigreeEntry) : List Ident := (idxKeysOf rows).2

/-- The groups `idx[key]` in the enumeration order of `keys`. -/
def compsOf (rows : List PedigreeEntry) : List (List Ident) :=
  (keysOf rows).map (fun k => alGetD (idxOf rows) (toKey k) [])

/-- Step 3a: the biggest group, by a strict `>` scan starting from the empty
set, so the first group of maximal size wins. -/
def maxSetOf (rows : List PedigreeEntry) : List Ident :=
  (compsOf rows).foldl (fun acc c => if acc.length < c.length then c else acc) []

/-- The biggest-group scan in isolation (used to reason about `maxSetOf`). -/
def pickBiggest (l : List (List Ident)) (a0 : List Ident) : List Ident :=
  l.foldl (fun acc c => if acc.length < c.length then c else acc) a0

/-- Step 3b: everyone outside the biggest group, paired with the explanation. -/
def unconnectedOf (rows : List PedigreeEntry) : List (Ident × String) :=
  ((everyoneOf rows).filter (fun who => decide (who ∉ maxSetOf rows))).map
    (fun who => (who, "Individual is not properly connected to pedigree."))

/-- The edge list handed to the component algorithm: `for (const who in child)`
pushes `[who, kid]`, where `who` is the enumeration's string key. -/
def edgesOf (rows : List PedigreeEntry) : List (Ident × Ident) :=
  (jsEnumKeys ((famSetsOf rows).child.map Prod.fst)).foldl
    (fun es who => es ++ (alGetD (famSetsOf rows).child who []).map (fun kid => (Ident.str who, kid)))
    []

/- Strongly-connected components by mutual reachability (the standard
semantics of `graph.tarjan`). -/

def reachStep (edges : List (Ident × Ident)) (s : List Ident) : List Ident :=
  edges.foldl (fun s e => if e.1 ∈ s then setAdd s e.2 else s) s

def reachIter (edges : List (Ident × Ident)) : Nat → List Ident → List Ident
  | 0, s => s
  | n + 1, s => reachIter edges n (reachStep edges s)

def reachableB (vs : List Ident) (edges : List (Ident × Ident)) (v u : Ident) : Bool :=
  (reachIter edges vs.length [v]).contains u

def sccOf (vs : List Ident) (edges : List (Ident × Ident)) (v : Ident) : List Ident :=
  vs.filter (fun u => reachableB vs edges v u && reachableB vs edges u v)

/-- The component list: one maximal mutual-reachability class per vertex, in
first-vertex order.  A vertex is always in its own component, so a bare
self-loop yields a singleton component. -/
def tarjan (vs : List Ident) (edges : List (Ident × Ident)) : List (List Ident) :=
  vs.foldl
    (fun sccs v => if sccs.any (fun scc => scc.contains v) then sccs else sccs ++ [sccOf vs edges v])
    []

/-- The cyclic set: members of every component with more than one vertex. -/
def cyclicOf (rows : List PedigreeEntry) : List Ident :=
  (tarjan (everyoneOf rows) (edgesOf rows)).foldl
    (fun cyc scc => if 1 < scc.length then scc.foldl setAdd cyc else cyc) []

/- ### The validator -/

def initResult : PedigreeValidationResult := ⟨true, [], [], []⟩

def emptyReason : String := "An empty pedigree is not permitted."

def multipleFamiliesReason : String := "The pedigree contains multiple families."

def oneFamilyReason : String := "The pedigree contains individuals who belong to more than one family."

def duplicateRowsReason : String := "Pedigree contains duplicate rows for at least one individual."

def duplicateRowsWhy : String := "Person is defined in more than one line of the pedigree."

def dualRoleReason : String := "There is at least one sample used as both father and mother."

def dualRoleWhy : String := "Person is used as both a mother and a father."

def mumsReason : String := "There is at least one sample that occurs as a mother but is not female."

def mumsWhy : String := "Person is not female, but occurs as a mother."

def dadsReason : String := "There is at least one sample that occurs as a father but is not male."

def dadsWhy : String := "Person is not male, but occurs as a father."

def fullyConnectedReason : String := "At least one individual is not properly connected to family."

def cyclesReason : String := "There was at least one instance of someone being their own ancestor."

def cyclesWhy : String := "Sample is an ancestor of itself."

/-- `validatePedigree` from `src/pedigree.ts`, stage by stage in source order.
The per-family loop iterates `for (const famid in fams)`, i.e. the object
enumeration order of the grouping's keys. -/
def validatePedigree (ped : List PedigreeEntry) (options : PedigreeValidationOptions) :
    PedigreeValidationResult :=
  if ped.length = 0 then addProblem options initResult .empty emptyReason []
  else
    let r1 :=
      if 1 < (famidsOf ped).length then
        addProblem options initResult .multipleFamilies multipleFamiliesReason []
      else initResult
    let r2 :=
      if 0 < (familyProblemsOf ped).length then
        addProblem options r1 .oneFamily oneFamilyReason (familyProblemsOf ped)
      else r1
    let ds := dupScan (ped.map normRow)
    let r3 :=
      if 0 < ds.duplicates.length then
        addProblem options r2 .duplicates duplicateRowsReason (zip ds.duplicates duplicateRowsWhy)
      else r2
    let r4 :=
      if 0 < (setIntersection ds.dads ds.mums).length then
        addProblem options r3 .duplicates dualRoleReason
          (zip (setIntersection ds.dads ds.mums) dualRoleWhy)
      else r3
    let sx := sexScan (ped.map normRow) ds.dads ds.mums
    let r5 :=
      if 0 < sx.1.length then addProblem options r4 .inconsistentSex mumsReason (zip sx.1 mumsWhy)
      else r4
    let r6 :=
      if 0 < sx.2.length then addProblem options r5 .inconsistentSex dadsReason (zip sx.2 dadsWhy)
      else r5
    (jsEnumKeys ((famidsOf ped).map toKey)).foldl
      (fun r fk =>
        let ra :=
          if 1 < (keysOf (famRows ped fk)).length then
            addProblem options r .fullyConnected fullyConnectedReason (unconnectedOf (famRows ped fk))
          else r
        if 0 < (cyclicOf (famRows ped fk)).length then
          addProblem options ra .cycles cyclesReason (zip (cyclicOf (famRows ped fk)) cyclesWhy)
        else ra)
      r6

/- ### Findings and their fixed recording order -/

/-- One reporter invocation: a category, a reason, and the (who, why) pairs. -/
abbrev Finding := CheckCategory × String × List (Ident × String)

/-- A conditionally emitted finding (`if (...) { addProblem(...) }`). -/
def condFinding (c : Prop) [Decidable c] (f : Finding) : List Finding :=
  if c then [f] else []

/-- The findings one family contributes: `fullyConnected`, then `cycles`. -/
def famFindingsOf (rows : List PedigreeEntry) : List Finding :=
  condFinding (1 < (keysOf rows).length)
      (.fullyConnected, fullyConnectedReason, unconnectedOf rows)
    ++ condFinding (0 < (cyclicOf rows).length)
      (.cycles, cyclesReason, zip (cyclicOf rows) cyclesWhy)

/-- The complete ordered sequence of reporter invocations: empty, then
multipleFamilies, oneFamily, duplicates (rows), duplicates (dual role),
inconsistentSex (mothers), inconsistentSex (fathers), then for each family
(in the object enumeration order `jsEnumKeys` of the grouping's keys)
fullyConnected followed by cycles. -/
def orderedFindings (ped : List PedigreeEntry) : List Finding :=
  if ped.length = 0 then [(.empty, emptyReason, [])]
  else
    condFinding (1 < (famidsOf ped).length) (.multipleFamilies, multipleFamiliesReason, [])
    ++ (condFinding (0 < (familyProblemsOf ped).length)
        (.oneFamily, oneFamilyReason, familyProblemsOf ped)
    ++ (condFinding (0 < (dupScan (ped.map normRow)).duplicates.length)
        (.duplicates, duplicateRowsReason, zip (dupScan (ped.map normRow)).duplicates duplicateRowsWhy)
    ++ (condFinding
        (0 < (setIntersection (dupScan (ped.map normRow)).dads (dupScan (ped.map normRow)).mums).length)
        (.duplicates, dualRoleReason,
          zip (setIntersection (dupScan (ped.map normRow)).dads (dupScan (ped.map normRow)).mums) dualRoleWhy)
    ++ (condFinding
        (0 < (sexScan (ped.map normRow) (dupScan (ped.map normRow)).dads (dupScan (ped.map normRow)).mums).1.length)
        (.inconsistentSex, mumsReason,
          zip (sexScan (ped.map normRow) (dupScan (ped.map normRow)).dads (dupScan (ped.map normRow)).mums).1 mumsWhy)
    ++ (condFinding
        (0 < (sexScan (ped.map normRow) (dupScan (ped.map normRow)).dads (dupScan (ped.map normRow)).mums).2.length)
        (.inconsistentSex, dadsReason,
          zip (sexScan (ped.map normRow) (dupScan (ped.map normRow)).dads (dupScan (ped.map normRow)).mums).2 dadsWhy)
    ++ ((jsEnumKeys ((famidsOf ped).map toKey)).map (fun fk => famFindingsOf (famRows ped fk))).flatten)))))

/-- Feed a list of findings through `addProblem` in order. -/
def applyFindings (options : PedigreeValidationOptions) (r : PedigreeValidationResult)
    (fs : List Finding) : PedigreeValidationResult :=
  fs.foldl (fun r f => addProblem options r f.1 f.2.1 f.2.2) r

/- ### Specification-side definitions for individual claims -/

/-- The canonical sex mapping exactly as the specification words it: the
recognised raw encodings map to Unknown / Male / Female, anything else is
left untouched. -/
def canonSex (s : SexValue) : SexValue :=
  if s ∈ [SexValue.num 0, SexValue.num (-1), SexValue.str "0", SexValue.null, SexValue.undef] then
    SexValue.null
  else if s ∈ [SexValue.num 1, SexValue.str "1", SexValue.str "Male"] then SexValue.str "Male"
  else if s ∈ [SexValue.num 2, SexValue.str "2", SexValue.str "Female"] then SexValue.str "Female"
  else s

/-- Replace falsy definite parent identifiers (the number 0, the empty
string) by "no parent recorded". -/
def scrubRow (r : PedigreeEntry) : PedigreeEntry :=
  ⟨r.family, r.sample, truthyOpt r.mother, truthyOpt r.father, r.sex⟩

/-- Rows whose sample has not appeared in an earlier row (`seen` carries the
samples already encountered). -/
def freshRowsAux (seen : List Ident) : List PedigreeEntry → List PedigreeEntry
  | [] => []
  | r :: t =>
      if r.sample ∈ seen then freshRowsAux seen t
      else r :: freshRowsAux (r.sample :: seen) t

/-- The rows that the duplicate scan does not skip: each sample's first row. -/
def freshRowsOf (l : List PedigreeEntry) : List PedigreeEntry := freshRowsAux [] l

/-- The insertion-ordered deduplicated image of a list under `f`. -/
def foldImage {α β : Type} [DecidableEq β] (f : α → β) (l : List α) : List β :=
  l.foldl (fun acc x => setAdd acc (f x)) []

/-- The set of object keys reached by a set of identifiers. -/
def keyImage (l : List Ident) : List String := foldImage toKey l

/-- The `warning` action as the specification describes it: push the reason,
then record every (identifier, explanation) pair. -/
def specWarningAction (r : PedigreeValidationResult) (reason : String)
    (whoAndWhy : List (Ident × String)) : PedigreeValidationResult :=
  whoAndWhy.foldl addPair ⟨r.ok, r.reasons ++ [reason], r.problematic, r.whys⟩

/- ### Concrete inputs used by counterexamples and witnesses -/

/-- `strict` with the `empty` category escalated to an error. -/
def strictEmpty : PedigreeValidationOptions :=
  ⟨.error, .error, .error, .error, .error, .error, .error⟩

/-- A single individual recorded as its own father. -/
def pedSelfFather : List PedigreeEntry :=
  [⟨.str "FAM01", .str "SAM001", none, some (.str "SAM001"), .str "Male"⟩]

/-- Two rows for sample A; the duplicate (second) row is the only one listing
P as a mother, while the first lists P as a father. -/
def pedDupSkip : List PedigreeEntry :=
  [⟨.str "F", .str "A", none, some (.str "P"), .null⟩,
   ⟨.str "F", .str "A", some (.str "P"), none, .null⟩]

/-- Families named "2" (first seen) and "1", each containing a two-cycle. -/
def pedFamOrder : List PedigreeEntry :=
  [⟨.str "2", .str "A", none, some (.str "B"), .str "Male"⟩,
   ⟨.str "2", .str "B", none, some (.str "A"), .str "Male"⟩,
   ⟨.str "1", .str "C", none, some (.str "D"), .str "Male"⟩,
   ⟨.str "1", .str "D", none, some (.str "C"), .str "Male"⟩]

/-- Duplicated rows for the number 1 and for the string "1": distinct set
members whose object keys collide. -/
def pedMixedKeys : List PedigreeEntry :=
  [⟨.str "F", .num 1, none, none, .null⟩, ⟨.str "F", .num 1, none, none, .null⟩,
   ⟨.str "F", .str "1", none, none, .null⟩, ⟨.str "F", .str "1", none, none, .null⟩]

/-- One family splitting into the components {A, B} and {C, D}. -/
def rowsTwoComps : List PedigreeEntry :=
  [⟨.str "F", .str "A", none, some (.str "B"), .null⟩,
   ⟨.str "F", .str "C", none, some (.str "D"), .null⟩]

/-- M has a record with sex Male and occurs as K's mother. -/
def pedMotherMale : List PedigreeEntry :=
  [⟨.str "F", .str "K", some (.str "M"), none, .null⟩,
   ⟨.str "F", .str "M", none, none, .str "Male"⟩]

/-- One family with two parentless samples, the number 1 and the string "1":
two singleton union-find components whose roots share the object key "1". -/
def pedMixedSingles : List PedigreeEntry :=
  [⟨.str "F", .num 1, none, none, .null⟩,
   ⟨.str "F", .str "1", none, none, .null⟩]

/- ### Basic lemmas about the collection helpers -/

theorem mem_setAdd {α : Type} [DecidableEq α] (s : List α) (x a : α) :
    a ∈ setAdd s x ↔ a ∈ s ∨ a = x := by
  unfold setAdd
  split
  · rename_i h
    exact ⟨fun ha => Or.inl ha, fun ha => ha.elim id (fun e => e ▸ h)⟩
  · simp [List.mem_append]

theorem nodup_setAdd {α : Type} [DecidableEq α] (s : List α) (x : α) (h : s.Nodup) :
    (setAdd s x).Nodup := by
  unfold setAdd
  split
  · exact h
  · rename_i hx
    simp [List.nodup_append, h, hx]

theorem nodup_foldl_setAdd {α β : Type} [DecidableEq β] (f : α → β) (l : List α) :
    ∀ s : List β, s.Nodup → (l.foldl (fun acc x => setAdd acc (f x)) s).Nodup := by
  induction l with
  | nil => exact fun s h => h
  | cons a t ih => exact fun s h => ih _ (nodup_setAdd _ _ h)

theorem nodup_foldl_setAdd_plain {β : Type} [DecidableEq β] (l : List β) :
    ∀ s : List β, s.Nodup → (l.foldl setAdd s).Nodup := by
  induction l with
  | nil => exact fun s h => h
  | cons a t ih => exact fun s h => ih _ (nodup_setAdd _ _ h)

theorem mem_foldl_setAdd {α β : Type} [DecidableEq β] (f : α → β) (l : List α) :
    ∀ (s : List β) (b : β),
      b ∈ l.foldl (fun acc x => setAdd acc (f x)) s ↔ b ∈ s ∨ ∃ a ∈ l, f a = b := by
  induction l with
  | nil => simp
  | cons a t ih =>
      intro s b
      simp only [List.foldl_cons, ih, mem_setAdd, List.mem_cons]
      constructor
      · rintro (((hb | rfl) | ⟨x, hx, rfl⟩))
        · exact Or.inl hb
        · exact Or.inr ⟨a, Or.inl rfl, rfl⟩
        · exact Or.inr ⟨x, Or.inr hx, rfl⟩
      · rintro (hb | ⟨x, (rfl | hx), rfl⟩)
        · exact Or.inl (Or.inl hb)
        · exact Or.inl (Or.inr rfl)
        · exact Or.inr ⟨x, hx, rfl⟩

theorem mem_foldImage {α β : Type} [DecidableEq β] (f : α → β) (l : List α) (b : β) :
    b ∈ foldImage f l ↔ ∃ a ∈ l, f a = b := by
  simp [foldImage, mem_foldl_setAdd]

theorem nodup_foldImage {α β : Type} [DecidableEq β] (f : α → β) (l : List α) :
    (foldImage f l).Nodup :=
  nodup_foldl_setAdd f l [] List.nodup_nil

theorem alGet_cons {β : Type} (k' : String) (v : β) (t : List (String × β)) (k : String) :
    alGet ((k', v) :: t) k = if k' = k then some v else alGet t k := by
  by_cases h : k' = k <;> simp [alGet, List.find?_cons, h]

theorem alGet_isSome_iff {β : Type} (m : List (String × β)) (k : String) :
    (alGet m k).isSome ↔ k ∈ m.map Prod.fst := by
  induction m with
  | nil => simp [alGet]
  | cons p t ih =>
      rcases p with ⟨k', v⟩
      rw [alGet_cons]
      by_cases h : k' = k
      · simp [h]
      · have h' : ¬k = k' := fun e => h e.symm
        simp [h, h', ih]

theorem addWhy_keys (w : List (String × List String)) (who why : String) :
    (addWhy w who why).map Prod.fst = setAdd (w.map Prod.fst) who := by
  unfold addWhy setAdd
  by_cases h : who ∈ w.map Prod.fst
  · have hs : (alGet w who).isSome = true := (alGet_isSome_iff w who).mpr h
    rw [if_pos hs, if_pos h, List.map_map]
    apply List.map_congr_left
    intro p _
    by_cases hp : p.1 = who <;> simp [hp]
  · have hs : ¬((alGet w who).isSome = true) := by
      rw [alGet_isSome_iff]
      exact h
    rw [if_neg hs, if_neg h]
    simp

theorem foldl_addPair_ok (pairs : List (Ident × String)) :
    ∀ r : PedigreeValidationResult, (pairs.foldl addPair r).ok = r.ok := by
  induction pairs with
  | nil => exact fun _ => rfl
  | cons p t ih => exact fun r => ih (addPair r p)

theorem foldl_addPair_reasons (pairs : List (Ident × String)) :
    ∀ r : PedigreeValidationResult, (pairs.foldl addPair r).reasons = r.reasons := by
  induction pairs with
  | nil => exact fun _ => rfl
  | cons p t ih => exact fun r => ih (addPair r p)

/- ### The findings decomposition of the validator -/

theorem applyFindings_append (o : PedigreeValidationOptions) (r : PedigreeValidationResult)
    (a b : List Finding) :
    applyFindings o r (a ++ b) = applyFindings o (applyFindings o r a) b :=
  List.foldl_append _ _ a b

theorem applyFindings_cond_nil (o : PedigreeValidationOptions) (r : PedigreeValidationResult)
    (c : Prop) [Decidable c] (f : Finding) :
    applyFindings o r (condFinding c f) = if c then addProblem o r f.1 f.2.1 f.2.2 else r := by
  by_cases h : c <;> simp [condFinding, h, applyFindings]

theorem applyFindings_cond (o : PedigreeValidationOptions) (r : PedigreeValidationResult)
    (c : Prop) [Decidable c] (f : Finding) (rest : List Finding) :
    applyFindings o r (condFinding c f ++ rest) =
      applyFindings o (if c then addProblem o r f.1 f.2.1 f.2.2 else r) rest := by
  rw [applyFindings_append, applyFindings_cond_nil]

theorem applyFindings_flatten (o : PedigreeValidationOptions) (l : List String)
    (g : String → List Finding) :
    ∀ r, applyFindings o r ((l.map g).flatten) = l.foldl (fun r x => applyFindings o r (g x)) r := by
  induction l with
  | nil => exact fun _ => rfl
  | cons a t ih =>
      intro r
      rw [List.map_cons, List.flatten_cons, applyFindings_append, ih, List.foldl_cons]

theorem foldlCongr {α β : Type} {f g : β → α → β} {l : List α} (b : β)
    (H : ∀ b : β, ∀ a ∈ l, f b a = g b a) : l.foldl f b = l.foldl g b := by
  induction l generalizing b with
  | nil => rfl
  | cons a t ih =>
      rw [List.foldl_cons, List.foldl_cons, H b a (List.mem_cons_self a t)]
      exact ih _ (fun b x hx => H b x (List.mem_cons_of_mem a hx))

/-- The validator is exactly the ordered findings fed through `addProblem`. -/
theorem validatePedigree_eq_findings (ped : List PedigreeEntry)
    (options : PedigreeValidationOptions) :
    validatePedigree ped options = applyFindings options initResult (orderedFindings ped) := by
  by_cases h : ped.length = 0
  · simp [validatePedigree, orderedFindings, h, applyFindings_cond_nil, applyFindings,
      condFinding]
  · rw [validatePedigree, orderedFindings, if_neg h, if_neg h]
    rw [applyFindings_cond, applyFindings_cond, applyFindings_cond, applyFindings_cond,
      applyFindings_cond, applyFindings_cond, applyFindings_flatten]
    show List.foldl _ _ _ = List.foldl _ _ _
    apply foldlCongr
    intro b fk _
    show _ = applyFindings options b (famFindingsOf (famRows ped fk))
    rw [famFindingsOf, applyFindings_append, applyFindings_cond_nil, applyFindings_cond_nil]

/- ### The problematic / whys lockstep invariant -/

theorem foldImage_append {α β : Type} [DecidableEq β] (f : α → β) (l : List α) (x : α) :
    foldImage f (l ++ [x]) = setAdd (foldImage f l) (f x) := by
  simp [foldImage, List.foldl_append]

theorem keyImage_setAdd (l : List Ident) (x : Ident) :
    keyImage (setAdd l x) = setAdd (keyImage l) (toKey x) := by
  unfold setAdd
  split
  · rename_i h
    have hm : toKey x ∈ keyImage l := (mem_foldImage toKey l (toKey x)).mpr ⟨x, h, rfl⟩
    rw [if_pos hm]
  · have : keyImage (l ++ [x]) = setAdd (keyImage l) (toKey x) := foldImage_append toKey l x
    rw [this]
    unfold setAdd
    rfl

theorem addPair_lockstep (r : PedigreeValidationResult)
    (h : keyImage r.problematic = r.whys.map Prod.fst) (p : Ident × String) :
    keyImage (addPair r p).problematic = (addPair r p).whys.map Prod.fst := by
  show keyImage (setAdd r.problematic p.1) = (addWhy r.whys (toKey p.1) p.2).map Prod.fst
  rw [keyImage_setAdd, addWhy_keys, h]

theorem foldl_addPair_lockstep (pairs : List (Ident × String)) :
    ∀ r : PedigreeValidationResult, keyImage r.problematic = r.whys.map Prod.fst →
      keyImage (pairs.foldl addPair r).problematic = ((pairs.foldl addPair r).whys).map Prod.fst := by
  induction pairs with
  | nil => exact fun _ h => h
  | cons p t ih => exact fun r h => ih _ (addPair_lockstep r h p)

theorem addProblem_lockstep (o : PedigreeValidationOptions) (r : PedigreeValidationResult)
    (w : CheckCategory) (reason : String) (pairs : List (Ident × String))
    (h : keyImage r.problematic = r.whys.map Prod.fst) :
    keyImage (addProblem o r w reason pairs).problematic =
      (addProblem o r w reason pairs).whys.map Prod.fst := by
  unfold addProblem
  cases optGet o w with
  | error => exact foldl_addPair_lockstep pairs _ h
  | warning => exact foldl_addPair_lockstep pairs _ h
  | ignore => exact h

theorem applyFindings_lockstep (o : PedigreeValidationOptions) (fs : List Finding) :
    ∀ r : PedigreeValidationResult, keyImage r.problematic = r.whys.map Prod.fst →
      keyImage (applyFindings o r fs).problematic = (applyFindings o r fs).whys.map Prod.fst := by
  induction fs with
  | nil => exact fun _ h => h
  | cons f t ih => exact fun r h => ih _ (addProblem_lockstep o r f.1 f.2.1 f.2.2 h)

theorem keyImage_eq_nil_iff (l : List Ident) : keyImage l = [] ↔ l = [] := by
  constructor
  · intro h
    cases l with
    | nil => rfl
    | cons w t =>
        have hm : toKey w ∈ keyImage (w :: t) :=
          (mem_foldImage toKey (w :: t) (toKey w)).mpr ⟨w, List.mem_cons_self w t, rfl⟩
        rw [h] at hm
        exact absurd hm (List.not_mem_nil _)
  · rintro rfl
    rfl

theorem validate_lockstep (ped : List PedigreeEntry) (options : PedigreeValidationOptions) :
    keyImage (validatePedigree ped options).problematic =
      (validatePedigree ped options).whys.map Prod.fst := by
  rw [validatePedigree_eq_findings]
  exact applyFindings_lockstep options (orderedFindings ped) initResult rfl

/-- C4 (amended): for every input and policy the set of `whys` keys is exactly
the set of object-key coercions of the members of `problematic` (in first-use
order), and `problematic` is non-empty exactly when `whys` holds at least one
recorded explanation. -/
theorem C4_problematic_whys_lockstep (ped : List PedigreeEntry)
    (options : PedigreeValidationOptions) :
    keyImage (validatePedigree ped options).problematic =
      (validatePedigree ped options).whys.map Prod.fst ∧
    ((validatePedigree ped options).problematic = [] ↔
      (validatePedigree ped options).whys = []) := by
  refine ⟨validate_lockstep ped options, ?_⟩
  constructor
  · intro h
    have := validate_lockstep ped options
    rw [h] at this
    have : (validatePedigree ped options).whys.map Prod.fst = [] := by
      rw [← this]
      rfl
    exact List.map_eq_nil_iff.mp this
  · intro h
    have hk := validate_lockstep ped options
    rw [h] at hk
    exact (keyImage_eq_nil_iff _).mp (by simpa using hk)

/-- C4 counterexample: with duplicated rows for the number 1 and the string
"1", `problematic` holds two distinct identifiers while `whys` has the single
key "1", so `problematic` is not the set of keys of `whys`: the member
`Ident.num 1` is not a key of `whys` under any reading, and the cardinalities
differ. -/
theorem C4_counterexample :
    Ident.num 1 ∈ (validatePedigree pedMixedKeys strict).problematic ∧
    Ident.num 1 ∉ ((validatePedigree pedMixedKeys strict).whys.map Prod.fst).map Ident.str ∧
    (validatePedigree pedMixedKeys strict).problematic.length = 2 ∧
    (validatePedigree pedMixedKeys strict).whys.length = 1 := by
  decide

/-- C5: `addProblem` is the single policy-driven sink: an ignored category
leaves the verdict untouched; a warning pushes the reason and records every
(identifier, explanation) pair without changing `ok`; an error does the same
after clearing `ok`. -/
theorem C5_addProblem_policy (options : PedigreeValidationOptions)
    (r : PedigreeValidationResult) (which : CheckCategory) (reason : String)
    (pairs : List (Ident × String)) :
    (optGet options which = .ignore → addProblem options r which reason pairs = r) ∧
    (optGet options which = .warning →
      addProblem options r which reason pairs = specWarningAction r reason pairs ∧
      (addProblem options r which reason pairs).ok = r.ok ∧
      (addProblem options r which reason pairs).reasons = r.reasons ++ [reason]) ∧
    (optGet options which = .error →
      addProblem options r which reason pairs =
        specWarningAction ⟨false, r.reasons, r.problematic, r.whys⟩ reason pairs ∧
      (addProblem options r which reason pairs).ok = false) := by
  refine ⟨?_, ?_, ?_⟩
  · intro h
    unfold addProblem
    rw [h]
  · intro h
    unfold addProblem
    rw [h]
    exact ⟨rfl, foldl_addPair_ok pairs _, foldl_addPair_reasons pairs _⟩
  · intro h
    unfold addProblem
    rw [h]
    exact ⟨rfl, foldl_addPair_ok pairs _⟩

/-- C5 witness: under `strict` the `duplicates` category is an error, and
`addProblem` clears `ok`. -/
theorem C5_policy_witness :
    optGet strict CheckCategory.duplicates = .error ∧
    addProblem strict initResult .duplicates dualRoleReason [] =
      specWarningAction ⟨false, [], [], []⟩ dualRoleReason [] ∧
    (addProblem strict initResult .duplicates dualRoleReason []).ok = false :=
  ⟨rfl, (C5_addProblem_policy strict initResult .duplicates dualRoleReason []).2.2 rfl⟩

/-- C7: the empty input short-circuits to a single `empty` finding, and with
`empty` escalated to an error the verdict is exactly
`{ok := false, reasons := ["An empty pedigree is not permitted."], problematic := {}, whys := {}}`. -/
theorem C7_empty_short_circuit (options : PedigreeValidationOptions) :
    validatePedigree [] options = addProblem options initResult .empty emptyReason [] ∧
    (options.empty = .error → validatePedigree [] options = ⟨false, [emptyReason], [], []⟩) := by
  constructor
  · rfl
  · intro h
    show addProblem options initResult .empty emptyReason [] = _
    unfold addProblem
    have hh : optGet options .empty = .error := h
    rw [hh]
    rfl

/-- C7 witness: the concrete verdict on the empty pedigree with
`empty = error`. -/
theorem C7_empty_witness :
    strictEmpty.empty = .error ∧
    validatePedigree [] strictEmpty = ⟨false, [emptyReason], [], []⟩ :=
  ⟨rfl, (C7_empty_short_circuit strictEmpty).2 rfl⟩

/- ### Sex normalisation (C8) -/

theorem normalizeSex_eq_canonSex (s : SexValue) : normalizeSex s = canonSex s := by
  unfold normalizeSex canonSex
  simp only [List.mem_cons, List.mem_singleton, List.not_mem_nil, or_false]

/-- C8: the sex normalisation performed on every row maps exactly the
recognised encodings to their canonical values, leaves every other raw value
untouched, never fails, and modifies no field other than `sex`; `canonSex` is
the mapping as the specification states it, and `normRow` is the per-row
mutation `validatePedigree` applies to its working rows. -/
theorem C8_sex_normalization (r : PedigreeEntry) :
    normRow r = ⟨r.family, r.sample, r.mother, r.father, canonSex r.sex⟩ := by
  unfold normRow
  rw [normalizeSex_eq_canonSex]

/-- C1: an individual recorded as their own father.  The self-loop edge IS
added to the edge list handed to the component algorithm, every
strongly-connected component is a singleton, and the verdict is completely
clean under `strict` — the individual is never reported under `cycles`
(contradicting the specification and the repository's own test, which expect
the self-parent to be classified cyclic with the edge withheld). -/
theorem C1_self_parent_unreported :
    edgesOf (famRows pedSelfFather "FAM01") = [(Ident.str "SAM001", Ident.str "SAM001")] ∧
    tarjan (everyoneOf (famRows pedSelfFather "FAM01")) (edgesOf (famRows pedSelfFather "FAM01")) =
      [[Ident.str "SAM001"]] ∧
    validatePedigree pedSelfFather strict = ⟨true, [], [], []⟩ := by
  decide

/-- C2 counterexample: P is listed as a father in the first row and as a
mother in the (duplicate) second row, so the claim's intersection contains P;
but the scan skips the duplicate row entirely, the computed dual-role set is
empty, and the verdict records only the duplicate-row finding — P is never
reported. -/
theorem C2_counterexample :
    (∃ r ∈ pedDupSkip, fatherT r = some (Ident.str "P")) ∧
    (∃ r ∈ pedDupSkip, motherT r = some (Ident.str "P")) ∧
    setIntersection (dupScan (pedDupSkip.map normRow)).dads (dupScan (pedDupSkip.map normRow)).mums = [] ∧
    validatePedigree pedDupSkip strict =
      ⟨false, [duplicateRowsReason], [Ident.str "A"], [("A", [duplicateRowsWhy])]⟩ := by
  decide

/-- C3 counterexample: the families are first seen in the order "2", "1", but
both family names are canonical array indices, so the per-family loop visits
family "1" first and the cycle explanations of C and D are recorded before
those of A and B. -/
theorem C3_counterexample :
    famidsOf pedFamOrder = [Ident.str "2", Ident.str "1"] ∧
    (validatePedigree pedFamOrder strict).reasons =
      [multipleFamiliesReason, cyclesReason, cyclesReason] ∧
    (validatePedigree pedFamOrder strict).whys.map Prod.fst = ["C", "D", "A", "B"] := by
  decide

/-- C3 (amended): findings are recorded in the fixed order empty →
multipleFamilies → oneFamily → duplicates(rows) → duplicates(dual-role) →
inconsistentSex(mothers) → inconsistentSex(fathers) → per family
{fullyConnected → cycles}, but families are visited in the object key
enumeration order of the grouping (`jsEnumKeys`): integer-like family
identifiers ascending first, then the rest in first-seen order. -/
theorem C3_findings_order (ped : List PedigreeEntry) (options : PedigreeValidationOptions) :
    validatePedigree ped options = applyFindings options initResult (orderedFindings ped) :=
  validatePedigree_eq_findings ped options

/- ### The duplicate scan and the dual-role set (C2) -/

theorem mem_setIntersection {α : Type} [DecidableEq α] (a b : List α) (x : α) :
    x ∈ setIntersection a b ↔ x ∈ a ∧ x ∈ b := by
  simp [setIntersection, List.mem_filter]

theorem dupScan_fold_mem (l : List PedigreeEntry) :
    ∀ (s : DupScan) (seen : List Ident), (∀ x, x ∈ s.kids ↔ x ∈ seen) → ∀ who : Ident,
      (who ∈ (l.foldl dupStep s).dads ↔
        who ∈ s.dads ∨ ∃ r ∈ freshRowsAux seen l, fatherT r = some who) ∧
      (who ∈ (l.foldl dupStep s).mums ↔
        who ∈ s.mums ∨ ∃ r ∈ freshRowsAux seen l, motherT r = some who) := by
  induction l with
  | nil =>
      intro s seen hseen who
      simp [freshRowsAux]
  | cons row t ih =>
      intro s seen hseen who
      rw [List.foldl_cons]
      by_cases hk : row.sample ∈ s.kids
      · have hk' : row.sample ∈ seen := (hseen _).mp hk
        have hstep : dupStep s row = ⟨setAdd s.duplicates row.sample, s.kids, s.dads, s.mums⟩ := by
          unfold dupStep
          rw [if_pos hk]
        rw [hstep]
        show (who ∈ (t.foldl dupStep ⟨setAdd s.duplicates row.sample, s.kids, s.dads, s.mums⟩).dads ↔
            who ∈ s.dads ∨ ∃ r ∈ freshRowsAux seen (row :: t), fatherT r = some who) ∧ _
        rw [freshRowsAux, if_pos hk']
        exact ih ⟨setAdd s.duplicates row.sample, s.kids, s.dads, s.mums⟩ seen hseen who
      · have hk' : row.sample ∉ seen := fun hc => hk ((hseen _).mpr hc)
        have hstep : dupStep s row =
            ⟨s.duplicates, setAdd s.kids row.sample,
              match fatherT row with
              | some d => setAdd s.dads d
              | none => s.dads,
              match motherT row with
              | some m => setAdd s.mums m
              | none => s.mums⟩ := by
          unfold dupStep
          rw [if_neg hk]
        rw [hstep, freshRowsAux, if_neg hk']
        have hseen' : ∀ x, x ∈ setAdd s.kids row.sample ↔ x ∈ row.sample :: seen := by
          intro x
          rw [mem_setAdd, List.mem_cons]
          constructor
          · rintro (hx | rfl)
            · exact Or.inr ((hseen x).mp hx)
            · exact Or.inl rfl
          · rintro (rfl | hx)
            · exact Or.inr rfl
            · exact Or.inl ((hseen x).mpr hx)
        have IH := ih ⟨s.duplicates, setAdd s.kids row.sample,
            (match fatherT row with
            | some d => setAdd s.dads d
            | none => s.dads),
            (match motherT row with
            | some m => setAdd s.mums m
            | none => s.mums)⟩ (row.sample :: seen) hseen' who
        constructor
        · rw [IH.1]
          cases hf : fatherT row with
          | none => simp [hf]
          | some d =>
              simp only [hf, mem_setAdd, List.mem_cons, Option.some.injEq]
              constructor
              · rintro ((h1 | rfl) | ⟨r, hr, hfr⟩)
                · exact Or.inl h1
                · exact Or.inr ⟨row, Or.inl rfl, hf⟩
                · exact Or.inr ⟨r, Or.inr hr, hfr⟩
              · rintro (h1 | ⟨r, (rfl | hr), hfr⟩)
                · exact Or.inl (Or.inl h1)
                · rw [hf] at hfr
                  exact Or.inl (Or.inr (Option.some.inj hfr).symm)
                · exact Or.inr ⟨r, hr, hfr⟩
        · rw [IH.2]
          cases hm : motherT row with
          | none => simp [hm]
          | some m =>
              simp only [hm, mem_setAdd, List.mem_cons, Option.some.injEq]
              constructor
              · rintro ((h1 | rfl) | ⟨r, hr, hmr⟩)
                · exact Or.inl h1
                · exact Or.inr ⟨row, Or.inl rfl, hm⟩
                · exact Or.inr ⟨r, Or.inr hr, hmr⟩
              · rintro (h1 | ⟨r, (rfl | hr), hmr⟩)
                · exact Or.inl (Or.inl h1)
                · rw [hm] at hmr
                  exact Or.inl (Or.inr (Option.some.inj hmr).symm)
                · exact Or.inr ⟨r, hr, hmr⟩

theorem normRow_sample (r : PedigreeEntry) : (normRow r).sample = r.sample := rfl

theorem freshRowsAux_map_norm (l : List PedigreeEntry) :
    ∀ seen : List Ident, freshRowsAux seen (l.map normRow) = (freshRowsAux seen l).map normRow := by
  induction l with
  | nil => intro seen; rfl
  | cons r t ih =>
      intro seen
      show freshRowsAux seen (normRow r :: t.map normRow) = _
      rw [freshRowsAux, freshRowsAux]
      simp only [normRow_sample]
      by_cases h : r.sample ∈ seen
      · rw [if_pos h, if_pos h, ih]
      · rw [if_neg h, if_neg h, List.map_cons, ih]

theorem dupScan_fold_dads_nodup (l : List PedigreeEntry) :
    ∀ s : DupScan, s.dads.Nodup → ((l.foldl dupStep s).dads).Nodup := by
  induction l with
  | nil => exact fun _ h => h
  | cons row t ih =>
      intro s h
      rw [List.foldl_cons]
      apply ih
      unfold dupStep
      split
      · exact h
      · show (match fatherT row with
          | some d => setAdd s.dads d
          | none => s.dads).Nodup
        cases hf : fatherT row with
        | none => exact h
        | some d => exact nodup_setAdd _ _ h

theorem fatherT_normRow (r : PedigreeEntry) : fatherT (normRow r) = fatherT r := rfl

theorem motherT_normRow (r : PedigreeEntry) : motherT (normRow r) = motherT r := rfl

/-- C2 (amended): the dual-role set handed to the reporter is the intersection
of the father and mother identifier sets collected only from the rows the
duplicate scan does not skip (each sample's first row; `continue` drops the
parents of repeated rows) and only from truthy parent fields; it contains each
such identifier exactly once. -/
theorem C2_dual_role_characterization (ped : List PedigreeEntry) :
    (∀ who : Ident,
        who ∈ setIntersection (dupScan (ped.map normRow)).dads (dupScan (ped.map normRow)).mums ↔
          (∃ r ∈ freshRowsOf ped, fatherT r = some who) ∧
            (∃ r ∈ freshRowsOf ped, motherT r = some who)) ∧
    (setIntersection (dupScan (ped.map normRow)).dads (dupScan (ped.map normRow)).mums).Nodup := by
  constructor
  · intro who
    rw [mem_setIntersection]
    have h := dupScan_fold_mem (ped.map normRow) ⟨[], [], [], []⟩ [] (by simp) who
    show who ∈ ((ped.map normRow).foldl dupStep ⟨[], [], [], []⟩).dads ∧
        who ∈ ((ped.map normRow).foldl dupStep ⟨[], [], [], []⟩).mums ↔ _
    rw [h.1, h.2, freshRowsAux_map_norm]
    show (who ∈ ([] : List Ident) ∨ _) ∧ (who ∈ ([] : List Ident) ∨ _) ↔ _
    simp only [List.not_mem_nil, false_or]
    constructor
    · rintro ⟨⟨r, hr, hfr⟩, ⟨q, hq, hmq⟩⟩
      rcases List.mem_map.mp hr with ⟨r0, hr0, rfl⟩
      rcases List.mem_map.mp hq with ⟨q0, hq0, rfl⟩
      exact ⟨⟨r0, hr0, hfr⟩, ⟨q0, hq0, hmq⟩⟩
    · rintro ⟨⟨r, hr, hfr⟩, ⟨q, hq, hmq⟩⟩
      exact ⟨⟨normRow r, List.mem_map_of_mem normRow hr, hfr⟩,
        ⟨normRow q, List.mem_map_of_mem normRow hq, hmq⟩⟩
  · exact List.Nodup.filter _ (dupScan_fold_dads_nodup (ped.map normRow) _ List.nodup_nil)

/- ### Only samples can be flagged for inconsistent sex (C10) -/

theorem sexScan_fold_sample (dads mums : List Ident) (l : List PedigreeEntry) :
    ∀ (acc : List Ident × List Ident) (who : Ident),
      (who ∈ (l.foldl (sexStep dads mums) acc).1 → who ∈ acc.1 ∨ ∃ r ∈ l, r.sample = who) ∧
      (who ∈ (l.foldl (sexStep dads mums) acc).2 → who ∈ acc.2 ∨ ∃ r ∈ l, r.sample = who) := by
  induction l with
  | nil => intro acc who; simp
  | cons row t ih =>
      intro acc who
      rw [List.foldl_cons]
      constructor
      · intro hmem
        rcases (ih _ who).1 hmem with hin | ⟨r, hr, hs⟩
        · show who ∈ acc.1 ∨ _
          unfold sexStep at hin
          by_cases hc : row.sex ≠ .str "Female" ∧ row.sample ∈ mums
          · rw [if_pos hc] at hin
            rcases (mem_setAdd _ _ _).mp hin with h1 | rfl
            · exact Or.inl h1
            · exact Or.inr ⟨row, List.mem_cons_self _ _, rfl⟩
          · rw [if_neg hc] at hin
            exact Or.inl hin
        · exact Or.inr ⟨r, List.mem_cons_of_mem _ hr, hs⟩
      · intro hmem
        rcases (ih _ who).2 hmem with hin | ⟨r, hr, hs⟩
        · show who ∈ acc.2 ∨ _
          unfold sexStep at hin
          by_cases hc : row.sex ≠ .str "Male" ∧ row.sample ∈ dads
          · rw [if_pos hc] at hin
            rcases (mem_setAdd _ _ _).mp hin with h1 | rfl
            · exact Or.inl h1
            · exact Or.inr ⟨row, List.mem_cons_self _ _, rfl⟩
          · rw [if_neg hc] at hin
            exact Or.inl hin
        · exact Or.inr ⟨r, List.mem_cons_of_mem _ hr, hs⟩

/-- C10: only identifiers that occur as some record's sample can enter the
inconsistent-sex sets computed by `validatePedigree` — an implied parent
(used as father or mother but with no record of its own) is never reported
under `inconsistentSex`. -/
theorem C10_inconsistentSex_only_samples (ped : List PedigreeEntry) (who : Ident)
    (h : who ∈ (sexScan (ped.map normRow) (dupScan (ped.map normRow)).dads
          (dupScan (ped.map normRow)).mums).1 ∨
        who ∈ (sexScan (ped.map normRow) (dupScan (ped.map normRow)).dads
          (dupScan (ped.map normRow)).mums).2) :
    ∃ r ∈ ped, r.sample = who := by
  have key := sexScan_fold_sample (dupScan (ped.map normRow)).dads
    (dupScan (ped.map normRow)).mums (ped.map normRow) ([], []) who
  have hmap : ∃ r ∈ ped.map normRow, r.sample = who := by
    rcases h with h | h
    · rcases key.1 h with hin | hex
      · exact absurd hin (List.not_mem_nil _)
      · exact hex
    · rcases key.2 h with hin | hex
      · exact absurd hin (List.not_mem_nil _)
      · exact hex
  rcases hmap with ⟨r, hr, hs⟩
  rcases List.mem_map.mp hr with ⟨r0, hr0, rfl⟩
  exact ⟨r0, hr0, hs⟩

/-- C10 witness: M (recorded male, used as K's mother) is flagged in the
mother set, and M is indeed some record's sample. -/
theorem C10_sample_witness :
    (Ident.str "M" ∈ (sexScan (pedMotherMale.map normRow) (dupScan (pedMotherMale.map normRow)).dads
        (dupScan (pedMotherMale.map normRow)).mums).1 ∨
      Ident.str "M" ∈ (sexScan (pedMotherMale.map normRow) (dupScan (pedMotherMale.map normRow)).dads
        (dupScan (pedMotherMale.map normRow)).mums).2) ∧
    ∃ r ∈ pedMotherMale, r.sample = Ident.str "M" :=
  ⟨Or.inl (by decide),
    C10_inconsistentSex_only_samples pedMotherMale (Ident.str "M") (Or.inl (by decide))⟩

/- ### Falsy parent identifiers are inert (C9) -/

theorem truthyOpt_idem (x : Option Ident) : truthyOpt (truthyOpt x) = truthyOpt x := by
  cases x with
  | none => rfl
  | some i =>
      cases i with
      | str s =>
          by_cases h : s = "" <;> simp [truthyOpt, h]
      | num n =>
          by_cases h : n = 0 <;> simp [truthyOpt, h]

theorem fatherT_scrubRow (r : PedigreeEntry) : fatherT (scrubRow r) = fatherT r :=
  truthyOpt_idem r.father

theorem motherT_scrubRow (r : PedigreeEntry) : motherT (scrubRow r) = motherT r :=
  truthyOpt_idem r.mother

theorem map_norm_scrub (ped : List PedigreeEntry) :
    (ped.map scrubRow).map normRow = (ped.map normRow).map scrubRow := by
  rw [List.map_map, List.map_map]
  rfl

theorem famidsOf_scrub (ped : List PedigreeEntry) :
    famidsOf (ped.map scrubRow) = famidsOf ped := by
  unfold famidsOf
  rw [List.foldl_map]
  rfl

theorem famRows_scrub (ped : List PedigreeEntry) (k : String) :
    famRows (ped.map scrubRow) k = (famRows ped k).map scrubRow := by
  unfold famRows
  rw [List.filter_map]
  rfl

theorem whosOf_scrub (row : PedigreeEntry) : whosOf (scrubRow row) = whosOf row := by
  unfold whosOf
  rw [fatherT_scrubRow, motherT_scrubRow]
  rfl

theorem famIdxOf_scrub (ped : List PedigreeEntry) :
    famIdxOf (ped.map scrubRow) = famIdxOf ped := by
  unfold famIdxOf
  rw [famidsOf_scrub]
  apply foldlCongr
  intro idx famid _
  rw [famRows_scrub, List.foldl_map]
  apply foldlCongr
  intro idx2 row _
  rw [whosOf_scrub]

theorem familyProblemsOf_scrub (ped : List PedigreeEntry) :
    familyProblemsOf (ped.map scrubRow) = familyProblemsOf ped := by
  unfold familyProblemsOf
  rw [famIdxOf_scrub]

theorem dupScan_scrub (l : List PedigreeEntry) : dupScan (l.map scrubRow) = dupScan l := by
  unfold dupScan
  rw [List.foldl_map]
  apply foldlCongr
  intro s row _
  unfold dupStep
  rw [fatherT_scrubRow, motherT_scrubRow]
  rfl

theorem sexScan_scrub (l : List PedigreeEntry) (dads mums : List Ident) :
    sexScan (l.map scrubRow) dads mums = sexScan l dads mums := by
  unfold sexScan
  rw [List.foldl_map]
  rfl

theorem famSetsOf_scrub (rows : List PedigreeEntry) :
    famSetsOf (rows.map scrubRow) = famSetsOf rows := by
  unfold famSetsOf
  rw [List.foldl_map]
  apply foldlCongr
  intro s row _
  unfold famStep
  rw [fatherT_scrubRow, motherT_scrubRow]
  rfl

theorem ufOf_scrub (rows : List PedigreeEntry) : ufOf (rows.map scrubRow) = ufOf rows := by
  unfold ufOf
  rw [List.foldl_map]
  apply foldlCongr
  intro uf row _
  rw [fatherT_scrubRow, motherT_scrubRow]
  rfl

theorem everyoneOf_scrub (rows : List PedigreeEntry) :
    everyoneOf (rows.map scrubRow) = everyoneOf rows := by
  unfold everyoneOf
  rw [famSetsOf_scrub]

theorem idxKeysOf_scrub (rows : List PedigreeEntry) :
    idxKeysOf (rows.map scrubRow) = idxKeysOf rows := by
  unfold idxKeysOf
  rw [everyoneOf_scrub, ufOf_scrub]

theorem keysOf_scrub (rows : List PedigreeEntry) : keysOf (rows.map scrubRow) = keysOf rows := by
  unfold keysOf
  rw [idxKeysOf_scrub]

theorem idxOf_scrub (rows : List PedigreeEntry) : idxOf (rows.map scrubRow) = idxOf rows := by
  unfold idxOf
  rw [idxKeysOf_scrub]

theorem compsOf_scrub (rows : List PedigreeEntry) :
    compsOf (rows.map scrubRow) = compsOf rows := by
  unfold compsOf
  rw [keysOf_scrub, idxOf_scrub]

theorem maxSetOf_scrub (rows : List PedigreeEntry) :
    maxSetOf (rows.map scrubRow) = maxSetOf rows := by
  unfold maxSetOf
  rw [compsOf_scrub]

theorem unconnectedOf_scrub (rows : List PedigreeEntry) :
    unconnectedOf (rows.map scrubRow) = unconnectedOf rows := by
  unfold unconnectedOf
  rw [everyoneOf_scrub, maxSetOf_scrub]

theorem edgesOf_scrub (rows : List PedigreeEntry) :
    edgesOf (rows.map scrubRow) = edgesOf rows := by
  unfold edgesOf
  rw [famSetsOf_scrub]

theorem cyclicOf_scrub (rows : List PedigreeEntry) :
    cyclicOf (rows.map scrubRow) = cyclicOf rows := by
  unfold cyclicOf
  rw [everyoneOf_scrub, edgesOf_scrub]

/-- C9: a parent recorded as the number 0 or the empty string is treated as
"no parent recorded" by every check: scrubbing such parents to null changes
neither the family-membership index, nor the duplicate scan's father/mother
sets, nor any family's kinship node set, union-find, or parent-child edge
set, nor the final verdict under any policy. -/
theorem C9_falsy_parents_inert (ped : List PedigreeEntry)
    (options : PedigreeValidationOptions) (k : String) :
    famIdxOf (ped.map scrubRow) = famIdxOf ped ∧
    dupScan ((ped.map scrubRow).map normRow) = dupScan (ped.map normRow) ∧
    everyoneOf (famRows (ped.map scrubRow) k) = everyoneOf (famRows ped k) ∧
    ufOf (famRows (ped.map scrubRow) k) = ufOf (famRows ped k) ∧
    edgesOf (famRows (ped.map scrubRow) k) = edgesOf (famRows ped k) ∧
    validatePedigree (ped.map scrubRow) options = validatePedigree ped options := by
  refine ⟨famIdxOf_scrub ped, ?_, ?_, ?_, ?_, ?_⟩
  · rw [map_norm_scrub, dupScan_scrub]
  · rw [famRows_scrub, everyoneOf_scrub]
  · rw [famRows_scrub, ufOf_scrub]
  · rw [famRows_scrub, edgesOf_scrub]
  · unfold validatePedigree
    rw [List.length_map]
    by_cases h : ped.length = 0
    · rw [if_pos h, if_pos h]
    · rw [if_neg h, if_neg h]
      simp only [famidsOf_scrub, familyProblemsOf_scrub, map_norm_scrub, dupScan_scrub,
        sexScan_scrub, famRows_scrub, keysOf_scrub, cyclicOf_scrub, unconnectedOf_scrub]

/- ### The main-component selection (C6) -/

theorem setAdd_of_mem {α : Type} [DecidableEq α] {s : List α} {x : α} (h : x ∈ s) :
    setAdd s x = s := if_pos h

theorem setAdd_of_not_mem {α : Type} [DecidableEq α] {s : List α} {x : α} (h : x ∉ s) :
    setAdd s x = s ++ [x] := if_neg h

theorem maxSetOf_eq (rows : List PedigreeEntry) :
    maxSetOf rows = pickBiggest (compsOf rows) [] := rfl

theorem pickBiggest_cons (c : List Ident) (t : List (List Ident)) (a0 : List Ident) :
    pickBiggest (c :: t) a0 = pickBiggest t (if a0.length < c.length then c else a0) := rfl

theorem pickBiggest_le (l : List (List Ident)) :
    ∀ a0 : List Ident, a0.length ≤ (pickBiggest l a0).length ∧
      ∀ c ∈ l, c.length ≤ (pickBiggest l a0).length := by
  induction l with
  | nil => intro a0; exact ⟨Nat.le_refl _, by simp⟩
  | cons c t ih =>
      intro a0
      rw [pickBiggest_cons]
      constructor
      · by_cases h : a0.length < c.length
        · rw [if_pos h]
          exact Nat.le_trans (Nat.le_of_lt h) (ih c).1
        · rw [if_neg h]
          exact (ih a0).1
      · intro d hd
        rcases List.mem_cons.mp hd with rfl | hd'
        · by_cases h : a0.length < d.length
          · rw [if_pos h]
            exact (ih d).1
          · rw [if_neg h]
            exact Nat.le_trans (Nat.le_of_not_lt h) (ih a0).1
        · exact (ih _).2 d hd'

theorem pickBiggest_mem (l : List (List Ident)) :
    ∀ a0 : List Ident, pickBiggest l a0 = a0 ∨ pickBiggest l a0 ∈ l := by
  induction l with
  | nil => intro a0; exact Or.inl rfl
  | cons c t ih =>
      intro a0
      rw [pickBiggest_cons]
      by_cases h : a0.length < c.length
      · rw [if_pos h]
        rcases ih c with h1 | h1
        · exact Or.inr (by rw [h1]; exact List.mem_cons_self c t)
        · exact Or.inr (List.mem_cons_of_mem c h1)
      · rw [if_neg h]
        rcases ih a0 with h1 | h1
        · exact Or.inl h1
        · exact Or.inr (List.mem_cons_of_mem c h1)

theorem pickBiggest_stable (l : List (List Ident)) :
    ∀ a0 : List Ident, (pickBiggest l a0).length = a0.length → pickBiggest l a0 = a0 := by
  induction l with
  | nil => intro a0 _; rfl
  | cons c t ih =>
      intro a0 hlen
      rw [pickBiggest_cons] at hlen ⊢
      by_cases h : a0.length < c.length
      · rw [if_pos h] at hlen ⊢
        have hge : c.length ≤ (pickBiggest t c).length := (pickBiggest_le t c).1
        omega
      · rw [if_neg h] at hlen ⊢
        exact ih a0 hlen

theorem pickBiggest_first_max (l : List (List Ident)) :
    ∀ a0 : List Ident, a0.length < (pickBiggest l a0).length →
      l.find? (fun c => decide ((pickBiggest l a0).length ≤ c.length)) =
        some (pickBiggest l a0) := by
  induction l with
  | nil => intro a0 h; exact absurd h (Nat.lt_irrefl _)
  | cons c t ih =>
      intro a0 hlt
      rw [pickBiggest_cons] at hlt ⊢
      by_cases h : a0.length < c.length
      · rw [if_pos h] at hlt ⊢
        by_cases hM : (pickBiggest t c).length = c.length
        · have hc : pickBiggest t c = c := pickBiggest_stable t c hM
          rw [hc]
          exact List.find?_cons_of_pos _ (by simp)
        · have hgt : c.length < (pickBiggest t c).length :=
            Nat.lt_of_le_of_ne (pickBiggest_le t c).1 (fun e => hM e.symm)
          rw [List.find?_cons_of_neg _ (by simp only [decide_eq_true_eq, Nat.not_le]; omega)]
          exact ih c hgt
      · rw [if_neg h] at hlt ⊢
        have hc : c.length ≤ a0.length := Nat.le_of_not_lt h
        rw [List.find?_cons_of_neg _ (by simp only [decide_eq_true_eq, Nat.not_le]; omega)]
        exact ih a0 hlt

theorem famSets_kids_nodup (rows : List PedigreeEntry) :
    ∀ s : FamSets, s.kids.Nodup → ((rows.foldl famStep s).kids).Nodup := by
  induction rows with
  | nil => exact fun _ h => h
  | cons row t ih =>
      intro s h
      rw [List.foldl_cons]
      apply ih
      show (famStep s row).kids.Nodup
      unfold famStep
      cases fatherT row <;> cases motherT row <;> exact nodup_setAdd _ _ h

theorem everyoneOf_nodup (rows : List PedigreeEntry) : (everyoneOf rows).Nodup := by
  unfold everyoneOf setUnion3
  apply nodup_foldl_setAdd_plain
  apply nodup_foldl_setAdd_plain
  exact famSets_kids_nodup rows ⟨[], [], [], []⟩ List.nodup_nil

theorem idxFold_snd (ρ : Ident → Ident) (l : List Ident) :
    ∀ acc : List (String × List Ident) × List Ident,
      (l.foldl (fun acc who =>
          (alUpd acc.1 (toKey (ρ who)) (fun s => setAdd s who) [], setAdd acc.2 (ρ who))) acc).2 =
        l.foldl (fun ks w => setAdd ks (ρ w)) acc.2 := by
  induction l with
  | nil => intro acc; rfl
  | cons a t ih =>
      intro acc
      rw [List.foldl_cons, List.foldl_cons, ih]

theorem keysOf_eq (rows : List PedigreeEntry) :
    keysOf rows = foldImage (fun w => ufFind (ufOf rows) w) (everyoneOf rows) :=
  idxFold_snd (fun w => ufFind (ufOf rows) w) (everyoneOf rows) ([], [])

theorem map_fst_keyed (keys : List Ident) (F : Ident → List Ident) :
    ((keys.map (fun k => (toKey k, F k))).map Prod.fst) = keys.map toKey := by
  rw [List.map_map]
  rfl

theorem alGet_map_toKey (keys : List Ident) (F : Ident → List Ident) (k : Ident)
    (hinj : (keys.map toKey).Nodup) (hk : k ∈ keys) :
    alGet (keys.map (fun k2 => (toKey k2, F k2))) (toKey k) = some (F k) := by
  induction keys with
  | nil => cases hk
  | cons a t ih =>
      rw [List.map_cons, alGet_cons]
      by_cases h : toKey a = toKey k
      · have hak : a = k :=
          List.inj_on_of_nodup_map hinj (List.mem_cons_self a t) hk h
        rw [if_pos h, hak]
      · rw [if_neg h]
        have hk' : k ∈ t := by
          rcases List.mem_cons.mp hk with rfl | h'
          · exact absurd rfl h
          · exact h'
        have hinj' : (t.map toKey).Nodup := by
          rw [List.map_cons] at hinj
          exact hinj.of_cons
        exact ih hinj' hk'

theorem idxFold_fst (ρ : Ident → Ident) (l : List Ident) (hl : l.Nodup)
    (hinj : ((foldImage ρ l).map toKey).Nodup) :
    (l.foldl (fun acc who =>
        (alUpd acc.1 (toKey (ρ who)) (fun s => setAdd s who) [], setAdd acc.2 (ρ who)))
      (([], []) : List (String × List Ident) × List Ident)).1 =
      (foldImage ρ l).map (fun k => (toKey k, l.filter (fun w => decide (ρ w = k)))) := by
  induction l using List.reverseRecOn with
  | nil => rfl
  | append_singleton l w ih =>
      have hparts : l.Nodup ∧ w ∉ l := by
        rw [List.nodup_append] at hl
        exact ⟨hl.1, fun hm => hl.2.2 hm (List.mem_singleton_self w)⟩
      rcases hparts with ⟨hl', hw⟩
      rw [foldImage_append] at hinj
      rw [List.foldl_append, foldImage_append]
      by_cases hmem : ρ w ∈ foldImage ρ l
      · rw [setAdd_of_mem hmem] at hinj ⊢
        have hfst := ih hl' hinj
        show alUpd _ (toKey (ρ w)) (fun s => setAdd s w) [] = _
        rw [hfst]
        have hsome : (alGet ((foldImage ρ l).map
            (fun k => (toKey k, l.filter (fun v => decide (ρ v = k))))) (toKey (ρ w))).isSome := by
          rw [alGet_map_toKey (foldImage ρ l) _ (ρ w) hinj hmem]
          rfl
        unfold alUpd
        rw [if_pos hsome, List.map_map]
        apply List.map_congr_left
        intro k hk
        show (if toKey k = toKey (ρ w) then (toKey k, setAdd (l.filter (fun v => decide (ρ v = k))) w)
            else (toKey k, l.filter (fun v => decide (ρ v = k)))) = _
        by_cases he : toKey k = toKey (ρ w)
        · have hkw : k = ρ w := List.inj_on_of_nodup_map hinj hk hmem he
          rw [if_pos he]
          have hfil : (l ++ [w]).filter (fun v => decide (ρ v = k)) =
              l.filter (fun v => decide (ρ v = k)) ++ [w] := by
            rw [List.filter_append]
            have : [w].filter (fun v => decide (ρ v = k)) = [w] := by
              simp [hkw]
            rw [this]
          rw [hfil, setAdd_of_not_mem]
          intro hwin
          exact hw (List.mem_of_mem_filter hwin)
        · have hkw : ρ w ≠ k := fun e => he (congrArg toKey e).symm
          rw [if_neg he]
          have hfil : (l ++ [w]).filter (fun v => decide (ρ v = k)) =
              l.filter (fun v => decide (ρ v = k)) := by
            rw [List.filter_append]
            have : [w].filter (fun v => decide (ρ v = k)) = [] := by
              simp [hkw]
            rw [this, List.append_nil]
          rw [hfil]
      · rw [setAdd_of_not_mem hmem] at hinj ⊢
        have hinjparts : ((foldImage ρ l).map toKey).Nodup ∧ toKey (ρ w) ∉ (foldImage ρ l).map toKey := by
          rw [List.map_append, List.nodup_append] at hinj
          exact ⟨hinj.1, fun hm => hinj.2.2 hm (List.mem_singleton_self _)⟩
        rcases hinjparts with ⟨hinj', hnk⟩
        have hfst := ih hl' hinj'
        show alUpd _ (toKey (ρ w)) (fun s => setAdd s w) [] = _
        rw [hfst]
        have hnone : ¬((alGet ((foldImage ρ l).map
            (fun k => (toKey k, l.filter (fun v => decide (ρ v = k))))) (toKey (ρ w))).isSome = true) := by
          rw [alGet_isSome_iff, map_fst_keyed]
          exact hnk
        unfold alUpd
        rw [if_neg hnone, List.map_append]
        have hpre : (foldImage ρ l).map
              (fun k => (toKey k, l.filter (fun v => decide (ρ v = k)))) =
            (foldImage ρ l).map
              (fun k => (toKey k, (l ++ [w]).filter (fun v => decide (ρ v = k)))) := by
          apply List.map_congr_left
          intro k hk
          have hkw : ρ w ≠ k := fun e => hmem (e ▸ hk)
          rw [List.filter_append]
          have : [w].filter (fun v => decide (ρ v = k)) = [] := by
            simp [hkw]
          rw [this, List.append_nil]
        rw [hpre]
        have hlast : ([(toKey (ρ w), setAdd ([] : List Ident) w)] : List (String × List Ident)) =
            [(toKey (ρ w), (l ++ [w]).filter (fun v => decide (ρ v = (ρ w))))] := by
          have hfl : l.filter (fun v => decide (ρ v = (ρ w))) = [] := by
            rw [List.filter_eq_nil_iff]
            intro a ha
            simp only [decide_eq_true_eq]
            intro he
            exact hmem ((mem_foldImage ρ l (ρ w)).mpr ⟨a, ha, he⟩)
          rw [List.filter_append, hfl]
          have : [w].filter (fun v => decide (ρ v = (ρ w))) = [w] := by
            simp
          rw [this]
          rfl
        rw [hlast]
        rfl

theorem compsOf_eq_filters (rows : List PedigreeEntry)
    (hinj : ((keysOf rows).map toKey).Nodup) :
    compsOf rows = (keysOf rows).map
      (fun k => (everyoneOf rows).filter (fun w => decide (ufFind (ufOf rows) w = k))) := by
  have hkeys : keysOf rows = foldImage (fun w => ufFind (ufOf rows) w) (everyoneOf rows) :=
    keysOf_eq rows
  have hidx : idxOf rows = (keysOf rows).map
      (fun k => (toKey k, (everyoneOf rows).filter (fun w => decide (ufFind (ufOf rows) w = k)))) := by
    have h := idxFold_fst (fun w => ufFind (ufOf rows) w) (everyoneOf rows) (everyoneOf_nodup rows)
      (by rw [← hkeys]; exact hinj)
    rw [← hkeys] at h
    exact h
  unfold compsOf alGetD
  apply List.map_congr_left
  intro k hk
  rw [hidx, alGet_map_toKey (keysOf rows) _ k hinj hk]
  rfl

/-- C6: for a family whose kinship node set splits into more than one
union-find component (and whose root keys do not collide after object-key
coercion, which is automatic unless a numeric root and a string root share
the same decimal form), the enumerated groups are exactly the partition of
the node set by union-find root; the main component is selected with a
strict greater-than scan, so it has maximum cardinality and is the first
max-sized component in enumeration order; and the collected pairs are
exactly the node-set members outside the main component, each exactly once,
with the fixed explanation. -/
theorem C6_main_component (rows : List PedigreeEntry)
    (hsplit : 1 < (compsOf rows).length)
    (hinj : ((keysOf rows).map toKey).Nodup) :
    compsOf rows = (keysOf rows).map
      (fun k => (everyoneOf rows).filter (fun w => decide (ufFind (ufOf rows) w = k))) ∧
    maxSetOf rows ∈ compsOf rows ∧
    (∀ c ∈ compsOf rows, c.length ≤ (maxSetOf rows).length) ∧
    (compsOf rows).find? (fun c => decide ((maxSetOf rows).length ≤ c.length)) =
      some (maxSetOf rows) ∧
    unconnectedOf rows =
      ((everyoneOf rows).filter (fun w => decide (w ∉ maxSetOf rows))).map
        (fun w => (w, "Individual is not properly connected to pedigree.")) ∧
    ((unconnectedOf rows).map Prod.fst).Nodup := by
  have hcomps := compsOf_eq_filters rows hinj
  have hne : ∀ c ∈ compsOf rows, c ≠ [] := by
    intro c hc
    rw [hcomps] at hc
    rcases List.mem_map.mp hc with ⟨k, hk, rfl⟩
    have hk2 : k ∈ foldImage (fun w => ufFind (ufOf rows) w) (everyoneOf rows) := by
      rw [← keysOf_eq rows]
      exact hk
    rcases (mem_foldImage _ _ _).mp hk2 with ⟨w, hw, hwk⟩
    intro hnil
    have hwm : w ∈ (everyoneOf rows).filter (fun v => decide (ufFind (ufOf rows) v = k)) :=
      List.mem_filter.mpr ⟨hw, by simp [hwk]⟩
    rw [hnil] at hwm
    exact List.not_mem_nil _ hwm
  have hnonnil : compsOf rows ≠ [] := by
    intro h
    rw [h] at hsplit
    exact absurd hsplit (by simp)
  have hpos : 0 < (maxSetOf rows).length := by
    obtain ⟨c, t, hct⟩ := List.exists_cons_of_ne_nil hnonnil
    have hcmem : c ∈ compsOf rows := by
      rw [hct]
      exact List.mem_cons_self _ _
    have hc0 : 0 < c.length := List.length_pos.mpr (hne c hcmem)
    have hle := (pickBiggest_le (compsOf rows) []).2 c hcmem
    rw [maxSetOf_eq]
    omega
  refine ⟨hcomps, ?_, ?_, ?_, rfl, ?_⟩
  · rcases pickBiggest_mem (compsOf rows) [] with h | h
    · rw [maxSetOf_eq] at hpos
      rw [h] at hpos
      exact absurd hpos (by simp)
    · rw [maxSetOf_eq]
      exact h
  · intro c hc
    rw [maxSetOf_eq]
    exact (pickBiggest_le (compsOf rows) []).2 c hc
  · rw [maxSetOf_eq] at hpos ⊢
    exact pickBiggest_first_max (compsOf rows) [] hpos
  · have hmf : (unconnectedOf rows).map Prod.fst =
        (everyoneOf rows).filter (fun who => decide (who ∉ maxSetOf rows)) := by
      unfold unconnectedOf
      rw [List.map_map]
      rw [show (Prod.fst ∘ fun (who : Ident) =>
        (who, "Individual is not properly connected to pedigree.")) = id from rfl]
      rw [List.map_id]
    rw [hmf]
    exact List.Nodup.filter _ (everyoneOf_nodup rows)

/-- C6 witness: a family splitting into the components {A, B} and {C, D};
the first component wins the tie and C, D are collected. -/
theorem C6_component_witness :
    (1 < (compsOf rowsTwoComps).length ∧ ((keysOf rowsTwoComps).map toKey).Nodup) ∧
    (compsOf rowsTwoComps = (keysOf rowsTwoComps).map
      (fun k => (everyoneOf rowsTwoComps).filter
        (fun w => decide (ufFind (ufOf rowsTwoComps) w = k))) ∧
    maxSetOf rowsTwoComps ∈ compsOf rowsTwoComps ∧
    (∀ c ∈ compsOf rowsTwoComps, c.length ≤ (maxSetOf rowsTwoComps).length) ∧
    (compsOf rowsTwoComps).find?
        (fun c => decide ((maxSetOf rowsTwoComps).length ≤ c.length)) =
      some (maxSetOf rowsTwoComps) ∧
    unconnectedOf rowsTwoComps =
      ((everyoneOf rowsTwoComps).filter (fun w => decide (w ∉ maxSetOf rowsTwoComps))).map
        (fun w => (w, "Individual is not properly connected to pedigree.")) ∧
    ((unconnectedOf rowsTwoComps).map Prod.fst).Nodup) :=
  ⟨⟨by decide, by decide⟩, C6_main_component rowsTwoComps (by decide) (by decide)⟩

/-- C6 counterexample: the kinship node set {num 1, str "1"} splits into two
singleton union-find components (the two roots differ), so the claim demands
that the member outside the first max-sized component be reported once under
`fullyConnected`; but `idx` is a plain object, both roots coerce to the key
"1", the two components merge into one group that swallows everyone, and the
collected pair list — and hence `problematic` — is empty. -/
theorem C6_counterexample :
    ufFind (ufOf (famRows pedMixedSingles "F")) (Ident.num 1) ≠
      ufFind (ufOf (famRows pedMixedSingles "F")) (Ident.str "1") ∧
    Ident.num 1 ∈ everyoneOf (famRows pedMixedSingles "F") ∧
    Ident.str "1" ∈ everyoneOf (famRows pedMixedSingles "F") ∧
    1 < (keysOf (famRows pedMixedSingles "F")).length ∧
    unconnectedOf (famRows pedMixedSingles "F") = [] ∧
    (validatePedigree pedMixedSingles strict).problematic = [] ∧
    (validatePedigree pedMixedSingles strict).whys = [] := by
  decide
